import Mathlib

/-!
Verification of the twmtg acquisition pipeline (src/twmtg/populate.py and
src/twmtg/server.py) against its natural-language specification.

Texts are embedded as `List Char`.  Every Python and SQL string operation
used by the pipeline is translated into an executable Lean function:

* `pyReplaceWith`     - Python `str.replace(old, new)` and SQL `replace`
                        (leftmost, non-overlapping, scan continues after
                        each replacement); driven by fuel so that it is
                        structurally recursive and kernel-evaluable.
* `rmRemAux`          - `re.sub(r"\([^\)]+\)", "", s)`: removes each
                        maximal segment that starts at a literal open
                        paren, spans one or more non-close-paren
                        characters, and ends at the next close paren.
* `pyStrip`           - Python `str.strip()`.
* `collapseWsAux`     - `re.sub(r"\s+", " ", s)`: every maximal run of
                        whitespace becomes one space.
* `splitSp`           - Python `str.split(" ")` (single-space separator:
                        the empty string gives one empty token).

The cache / fetch logic of `http_get_path_cached_checksummed`, the
decompression step of `mtgjson_sqlite_path`, and the per-card pipeline of
`main` are modelled as explicit state-passing functions over small state
records, translated line by line from the source.
-/

/-- Whitespace as matched by Python `\s` (str patterns) and stripped by
`str.strip()`: the six ASCII whitespace characters plus the Unicode
whitespace code points. -/
def isPyWhitespace (c : Char) : Bool :=
  c = ' ' || c = '\t' || c = '\n' || c = '\x0b' || c = '\x0c' || c = '\r'
    || c = '\x1c' || c = '\x1d' || c = '\x1e' || c = '\x1f' || c = '\x85'
    || c = '\xa0' || c = '\u1680' || ('\u2000' ≤ c && c ≤ '\u200A')
    || c = '\u2028' || c = '\u2029' || c = '\u202F' || c = '\u205F'
    || c = '\u3000'

/-- Python `str.strip()`: drop leading and trailing whitespace. -/
def pyStrip (s : List Char) : List Char :=
  ((s.dropWhile isPyWhitespace).reverse.dropWhile isPyWhitespace).reverse

/-- Fuel-driven core of Python `str.replace(pat, repl)` / SQL
`replace(s, pat, repl)`: scan left to right; whenever `pat` is a prefix of
the remaining text, emit `repl` and continue scanning after the match.
Each step consumes at least one character, so fuel `s.length` is always
enough (`pyReplaceGo_fuel_congr` below). -/
def pyReplaceGo (pat repl : List Char) : Nat → List Char → List Char
  | 0, s => s
  | _ + 1, [] => []
  | fuel + 1, c :: rest =>
    if pat.isPrefixOf (c :: rest) ∧ pat ≠ [] then
      repl ++ pyReplaceGo pat repl fuel ((c :: rest).drop pat.length)
    else
      c :: pyReplaceGo pat repl fuel rest

/-- Python `str.replace(pat, repl)` / SQL `replace` for a non-empty
pattern. -/
def pyReplaceWith (pat repl s : List Char) : List Char :=
  pyReplaceGo pat repl s.length s

/-- The SQL projection `replace(text, '\n', ' ')` applied to every card
text by the select in `main` (the two-character sequence backslash-n is
replaced by a single space). -/
def sqlSelectText (t : List Char) : List Char :=
  pyReplaceWith ['\\', 'n'] [' '] t

/-- State of the scan of `re.sub(r"\([^\)]+\)", "", s)`: `none` while
outside a candidate parenthesized segment, `some buf` after an open paren
with `buf` the (reversed) characters read since it.  A close paren ends
the segment: it is deleted when the segment content is non-empty (the
regex requires one or more characters), otherwise the pair `()` is not a
match and stays.  An open paren with no later close paren stays. -/
def rmRemAux : Option (List Char) → List Char → List Char
  | none, [] => []
  | none, c :: rest =>
    if c = '(' then rmRemAux (some []) rest else c :: rmRemAux none rest
  | some buf, [] => '(' :: buf.reverse
  | some buf, c :: rest =>
    if c = ')' then
      if buf.isEmpty then '(' :: ')' :: rmRemAux none rest
      else rmRemAux none rest
    else rmRemAux (some (c :: buf)) rest

/-- `re.sub(r"\([^\)]+\)", "", s)` from line 111 of populate.py. -/
def rmReminderText (s : List Char) : List Char :=
  rmRemAux none s

/-- Scan state for `re.sub(r"\s+", " ", s)`: the flag records whether the
previous character was part of a whitespace run already replaced. -/
def collapseWsAux : Bool → List Char → List Char
  | _, [] => []
  | inRun, c :: rest =>
    if isPyWhitespace c then
      if inRun then collapseWsAux true rest
      else ' ' :: collapseWsAux true rest
    else
      c :: collapseWsAux false rest

/-- `re.sub(r"\s+", " ", s)` from line 111 of populate.py. -/
def collapseWs (s : List Char) : List Char :=
  collapseWsAux false s

/-- The single filter phrase configured in `FILTER_STRINGS`. -/
def filterPhrase : List Char :=
  "This spell costs {1} more to cast for each target beyond the first.".toList

/-- `FILTER_STRINGS` from line 82 of populate.py. -/
def FILTER_STRINGS : List (List Char) :=
  [filterPhrase]

/-- `text_rm_reminder_text` (populate.py lines 110-112): remove
parenthesized reminder text, strip, collapse whitespace runs. -/
def textRmReminder (text : List Char) : List Char :=
  collapseWs (pyStrip (rmReminderText text))

/-- `text_filtered` (populate.py lines 113-117): fold `str.replace(fs, "")`
over `FILTER_STRINGS`, then strip. -/
def textFiltered (text : List Char) : List Char :=
  pyStrip (FILTER_STRINGS.foldl (fun t fs => pyReplaceWith fs [] t) (textRmReminder text))

/-- The complete normalization a raw card text undergoes before
classification: the SQL newline-escape replacement from the select,
then reminder-text removal, whitespace normalization and filter-phrase
removal. -/
def twmtgNormalize (raw : List Char) : List Char :=
  textFiltered (sqlSelectText raw)

/-- Python `text_filtered.split(" ")` (populate.py line 118): split on the
single space character; the empty string yields one empty token. -/
def splitSp : List Char → List (List Char)
  | [] => [[]]
  | c :: rest =>
    if c = ' ' then [] :: splitSp rest
    else
      match splitSp rest with
      | [] => [[c]]
      | t :: ts => (c :: t) :: ts

/-- `TWENTY` from line 14 of populate.py. -/
def TWENTY : Nat := 20

/-- `num_words = len(text_filtered.split(" "))` (populate.py line 118). -/
def numWords (text : List Char) : Nat :=
  (splitSp text).length

/-- `legal = num_words <= TWENTY` paired with the word count
(populate.py lines 118-119), as a pure function of the normalized text. -/
def classify (text : List Char) : Bool × Nat :=
  (numWords text ≤ TWENTY, numWords text)

/-- A row of the source `cards` table as read by the pipeline: the
36-character `uuid` and the nullable rules `text` (populate.py line 104). -/
structure CardRecord where
  uuid : String
  text : Option (List Char)
deriving DecidableEq

/-- A row of the derived `twentyword_cards` table (populate.py lines
88-97): primary key `card_uuid`, the legality flag, the normalized text
that was evaluated, and the word count. -/
structure ClassRow where
  card_uuid : String
  legal : Bool
  legality_checked_text : List Char
  num_words : Nat
deriving DecidableEq

/-- The `insert ... on conflict (card_uuid) do update set ...` statement
(populate.py lines 120-126): if a row with the same `card_uuid` exists it
is overwritten field by field, otherwise the new row is appended. -/
def upsertRow (tbl : List ClassRow) (r : ClassRow) : List ClassRow :=
  if tbl.any (fun q => q.card_uuid == r.card_uuid) then
    tbl.map (fun q => if q.card_uuid == r.card_uuid then r else q)
  else
    tbl ++ [r]

/-- One iteration of the `async for row in cursor` loop (populate.py lines
107-128): the select already applied `replace(text, '\n', ' ')`; a falsy
text (SQL NULL or the empty string) is skipped, otherwise the card is
normalized, classified and upserted. -/
def stepCard (tbl : List ClassRow) (c : CardRecord) : List ClassRow :=
  match c.text with
  | none => tbl
  | some rawText =>
    let text := sqlSelectText rawText
    if text.isEmpty then tbl
    else
      let tf := textFiltered text
      let nw := numWords tf
      upsertRow tbl ⟨c.uuid, nw ≤ TWENTY, tf, nw⟩

/-- The whole classification loop of `main` over the `cards` table,
starting from a given state of `twentyword_cards`. -/
def runPipeline (cards : List CardRecord) (tbl : List ClassRow) : List ClassRow :=
  cards.foldl stepCard tbl

/-- The primary keys present in the derived table. -/
def keysOf (tbl : List ClassRow) : List String :=
  tbl.map (fun r => r.card_uuid)

/-- Number of rows of the derived table carrying a given key. -/
def countKey (tbl : List ClassRow) (u : String) : Nat :=
  (tbl.filter (fun r => r.card_uuid == u)).length

/-- The count query of populate.py lines 130-137 and server.py lines
90-97: `select count(*) from cards left join twentyword_cards where
cards.uuid = twentyword_cards.card_uuid and twentyword_cards.legal = b`.
The join carries no ON constraint, so the query counts the pairs of a
card row and a classification row whose keys agree and whose legal flag
equals `b` (with an empty right table the NULL-padded rows fail the WHERE
filter, which the pair count also gives). -/
def countJoin (cards : List CardRecord) (tbl : List ClassRow) (b : Bool) : Nat :=
  (cards.flatMap (fun c => tbl.filter (fun r => c.uuid == r.card_uuid && r.legal == b))).length

/-- The cards that pass the `if text:` test (populate.py line 109): text
present and still non-empty after the newline-escape replacement. -/
def cardHasText (c : CardRecord) : Bool :=
  match c.text with
  | none => false
  | some t => !(sqlSelectText t).isEmpty

/-- The remote side seen by `http_get_path_cached_checksummed`: the status
and body of the checksum endpoint, the streamed chunks of the asset
endpoint, and whether the asset stream fails (after how many chunks). -/
structure RemoteEnv where
  checksumStatus : Nat
  checksumBody : String
  assetChunks : List (List Nat)
  failAfterChunks : Option Nat
deriving DecidableEq

/-- The two cache artifacts owned by the fetcher: content of the
`.{comb_shasum}.checksum` file and of the `.{comb_shasum}` asset file,
`none` when the file does not exist. -/
structure CacheState where
  combsumFile : Option String
  assetFile : Option (List Nat)
deriving DecidableEq

/-- Outcome of `_asset_needs_refresh`: either the exception raised by
`_get_current_checksum` on a non-200 status, or the returned value
(`none` = refresh not needed). -/
inductive RefreshAnswer where
  | raiseChecksumStatus (code : Nat)
  | value (r : Option String)
deriving DecidableEq

/-- `_asset_needs_refresh` (populate.py lines 40-51): fetch the remote
checksum (raising on a non-200 status); if both cache files exist and the
recorded checksum equals the fetched one, return `none`; otherwise return
the fetched checksum.  The function only opens the checksum file for
reading, so the cache state is untouched. -/
def assetNeedsRefresh (env : RemoteEnv) (st : CacheState) : RefreshAnswer :=
  if env.checksumStatus ≠ 200 then .raiseChecksumStatus env.checksumStatus
  else
    match st.assetFile, st.combsumFile with
    | some _, some currentChecksum =>
      if env.checksumBody = currentChecksum then .value none
      else .value (some env.checksumBody)
    | _, _ => .value (some env.checksumBody)

/-- How a run of `http_get_path_cached_checksummed` ends. -/
inductive RunOutcome where
  | returnsAssetPath
  | raiseChecksumStatus (code : Nat)
  | raiseFetchFailed
deriving DecidableEq

/-- Result of one run of `http_get_path_cached_checksummed`: the outcome,
the final cache state, and how many times the asset endpoint was fetched. -/
structure RunResult where
  outcome : RunOutcome
  state : CacheState
  assetFetchCalls : Nat
deriving DecidableEq

/-- `http_get_path_cached_checksummed` (populate.py lines 22-64).  When
`_asset_needs_refresh` returns a truthy checksum (Python truthiness: the
empty string is falsy), the function FIRST writes the new checksum file
(lines 56-57) and only then streams the asset body (lines 59-62); opening
the asset file with mode wb+ truncates it, and a stream failure after k
chunks raises while the partial file and the already-written checksum
file stay. -/
def httpGetPathCachedChecksummed (env : RemoteEnv) (st : CacheState) : RunResult :=
  match assetNeedsRefresh env st with
  | .raiseChecksumStatus code => ⟨.raiseChecksumStatus code, st, 0⟩
  | .value none => ⟨.returnsAssetPath, st, 0⟩
  | .value (some nrChecksum) =>
    if nrChecksum = "" then ⟨.returnsAssetPath, st, 0⟩
    else
      let stW : CacheState := { st with combsumFile := some nrChecksum }
      match env.failAfterChunks with
      | none =>
        ⟨.returnsAssetPath, { stW with assetFile := some env.assetChunks.flatten }, 1⟩
      | some k =>
        ⟨.raiseFetchFailed, { stW with assetFile := some ((env.assetChunks.take k).flatten) }, 1⟩

/-- How the decompression step of `mtgjson_sqlite_path` ends. -/
inductive DecompOutcome where
  | returnsPath
  | raiseBunzip2
deriving DecidableEq

/-- Result of the decompression step: outcome, whether the decompressed
file exists afterwards, and how many times bunzip2 was run. -/
structure DecompResult where
  outcome : DecompOutcome
  uncompressedExists : Bool
  bunzip2Calls : Nat
deriving DecidableEq

/-- The decompression step of `mtgjson_sqlite_path` (populate.py lines
71-79): if the `.out` file already exists nothing is run; otherwise
`bunzip2 -k` runs, a nonzero return code raises, and on success the
decompressed file exists. -/
def mtgjsonDecompressStep (uncompressedExists : Bool) (bunzip2ReturnCode : Int) : DecompResult :=
  if uncompressedExists then ⟨.returnsPath, true, 0⟩
  else if bunzip2ReturnCode ≠ 0 then ⟨.raiseBunzip2, uncompressedExists, 1⟩
  else ⟨.returnsPath, true, 1⟩

/-- Modelled from the spec wording of C3 step 1 (and its amended form):
each embedded literal newline escape sequence (backslash-n) is replaced by
a single space.  Written independently of `pyReplaceWith` as a direct
two-character scan. -/
def specReplaceNewlines : List Char → List Char
  | [] => []
  | [c] => [c]
  | c :: d :: rest =>
    if c = '\\' ∧ d = 'n' then ' ' :: specReplaceNewlines rest
    else c :: specReplaceNewlines (d :: rest)

/-- Split a text at the first close paren: the characters before it and
the characters after it, or `none` when there is no close paren. -/
def splitAtClose : List Char → Option (List Char × List Char)
  | [] => none
  | c :: r =>
    if c = ')' then some ([], r)
    else (splitAtClose r).map (fun p => (c :: p.1, p.2))

/-- Modelled from the spec wording of the amended C3 step 2: remove every
maximal substring delimited by a literal open paren and the next close
paren that contains at least one character between them; the empty pair
stays.  Fuel-driven leftmost scan. -/
def rmParensSpecGo : Nat → List Char → List Char
  | 0, s => s
  | _ + 1, [] => []
  | fuel + 1, c :: rest =>
    if c = '(' then
      match splitAtClose rest with
      | some (content, after) =>
        if content.isEmpty then '(' :: rmParensSpecGo fuel rest
        else rmParensSpecGo fuel after
      | none => '(' :: rmParensSpecGo fuel rest
    else c :: rmParensSpecGo fuel rest

/-- Wrapper for `rmParensSpecGo` with enough fuel. -/
def rmParensSpecA (s : List Char) : List Char :=
  rmParensSpecGo s.length s

/-- Modelled from the spec wording of C3 step 1 as originally claimed:
remove every maximal substring delimited by an open paren and the next
close paren, INCLUDING the empty pair. -/
def rmParensClaimedGo : Nat → List Char → List Char
  | 0, s => s
  | _ + 1, [] => []
  | fuel + 1, c :: rest =>
    if c = '(' then
      match splitAtClose rest with
      | some (_, after) => rmParensClaimedGo fuel after
      | none => '(' :: rmParensClaimedGo fuel rest
    else c :: rmParensClaimedGo fuel rest

/-- Wrapper for `rmParensClaimedGo` with enough fuel. -/
def rmParensClaimed (s : List Char) : List Char :=
  rmParensClaimedGo s.length s

/-- Modelled from the spec wording: drop leading whitespace. -/
def specTrimLeft : List Char → List Char
  | [] => []
  | c :: r => if isPyWhitespace c then specTrimLeft r else c :: r

/-- Modelled from the spec wording: trim leading and trailing whitespace. -/
def specTrim (s : List Char) : List Char :=
  (specTrimLeft (specTrimLeft s).reverse).reverse

/-- Modelled from the spec wording: collapse every maximal whitespace run
to a single space.  Fuel-driven: a run is skipped with `dropWhile`. -/
def collapseRunsGo : Nat → List Char → List Char
  | 0, s => s
  | _ + 1, [] => []
  | fuel + 1, c :: rest =>
    if isPyWhitespace c then ' ' :: collapseRunsGo fuel (rest.dropWhile isPyWhitespace)
    else c :: collapseRunsGo fuel rest

/-- Wrapper for `collapseRunsGo` with enough fuel. -/
def collapseRuns (s : List Char) : List Char :=
  collapseRunsGo s.length s

/-- Modelled from the spec wording of C3 step 3: remove every
exact-substring occurrence of a phrase.  Written independently of
`pyReplaceWith` as a tail recursion with an accumulator of kept
characters. -/
def specRemoveAllGo (pat : List Char) : Nat → List Char → List Char → List Char
  | 0, acc, s => acc.reverse ++ s
  | _ + 1, acc, [] => acc.reverse
  | fuel + 1, acc, c :: rest =>
    if pat.isPrefixOf (c :: rest) ∧ pat ≠ [] then
      specRemoveAllGo pat fuel acc ((c :: rest).drop pat.length)
    else
      specRemoveAllGo pat fuel (c :: acc) rest

/-- Wrapper for `specRemoveAllGo` with enough fuel and an empty
accumulator. -/
def specRemoveAll (pat s : List Char) : List Char :=
  specRemoveAllGo pat s.length [] s

/-- Normalization exactly as claim C3 words it, modelled from the spec:
(1) remove every parenthesized substring including the empty pair; then
(2) treat newline escapes as whitespace, collapse whitespace runs, trim;
then (3) remove every filter-phrase occurrence and re-trim. -/
def normalizeSpecClaimed (t : List Char) : List Char :=
  specTrim (specRemoveAll filterPhrase (specTrim (collapseRuns (specReplaceNewlines (rmParensClaimed t)))))

/-- Normalization as the amended claim C3 words it, modelled from the
spec: (1) replace each literal newline escape by a space; (2) remove every
parenthesized substring with non-empty content, the empty pair staying;
(3) trim, then collapse each whitespace run to a single space; (4) remove
every filter-phrase occurrence, then re-trim. -/
def specNormalizeAmended (t : List Char) : List Char :=
  specTrim (specRemoveAll filterPhrase (collapseRuns (specTrim (rmParensSpecA (specReplaceNewlines t)))))

/-- A normalized text of exactly twenty space-separated tokens. -/
def twentyTokenText : List Char :=
  "a a a a a a a a a a a a a a a a a a a a".toList

/-- A normalized text of exactly twentyone space-separated tokens. -/
def twentyOneTokenText : List Char :=
  "a a a a a a a a a a a a a a a a a a a a a".toList

/-- A small concrete cards table used to exercise the pipeline. -/
def sampleCards : List CardRecord :=
  [⟨"u1", some ("one two".toList)⟩, ⟨"u2", none⟩, ⟨"u3", some []⟩,
   ⟨"u4", some twentyOneTokenText⟩]

/-- C1: evaluation of the fetch at a concrete failing input.  The remote
checksum endpoint answers 200 with checksum "newsum"; the cache is in its
pre-fetch state (no files); the asset stream fails before the first
chunk.  The run raises the fetch error, yet the checksum file already
holds the remote checksum while the asset file is empty, so the cache is
NOT in its pre-fetch state; worse, a subsequent refresh check declares
the poisoned cache fresh. -/
theorem c1_fetch_failure_records_checksum_before_asset :
    (httpGetPathCachedChecksummed ⟨200, "newsum", [[7]], some 0⟩ ⟨none, none⟩).outcome
      = .raiseFetchFailed
  ∧ (httpGetPathCachedChecksummed ⟨200, "newsum", [[7]], some 0⟩ ⟨none, none⟩).state.combsumFile
      = some "newsum"
  ∧ (httpGetPathCachedChecksummed ⟨200, "newsum", [[7]], some 0⟩ ⟨none, none⟩).state.assetFile
      = some []
  ∧ (httpGetPathCachedChecksummed ⟨200, "newsum", [[7]], some 0⟩ ⟨none, none⟩).state
      ≠ (⟨none, none⟩ : CacheState)
  ∧ assetNeedsRefresh ⟨200, "newsum", [[7]], some 0⟩
      (httpGetPathCachedChecksummed ⟨200, "newsum", [[7]], some 0⟩ ⟨none, none⟩).state
      = .value none := by
  decide

/-- Characterization of `_asset_needs_refresh` under a 200 status:
`none` exactly when both cache files exist with a matching recorded
checksum, the fetched checksum otherwise. -/
theorem assetNeedsRefresh_spec (env : RemoteEnv) (st : CacheState)
    (h : env.checksumStatus = 200) :
    (assetNeedsRefresh env st = .value none ↔
      (st.assetFile ≠ none ∧ st.combsumFile = some env.checksumBody))
  ∧ (assetNeedsRefresh env st ≠ .value none →
      assetNeedsRefresh env st = .value (some env.checksumBody)) := by
  rcases st with ⟨cs, af⟩
  rcases af with _ | a
  · exact ⟨by simp [assetNeedsRefresh, h], fun _ => by simp [assetNeedsRefresh, h]⟩
  · rcases cs with _ | c
    · exact ⟨by simp [assetNeedsRefresh, h], fun _ => by simp [assetNeedsRefresh, h]⟩
    · by_cases hc : env.checksumBody = c
      · subst hc
        exact ⟨by simp [assetNeedsRefresh, h], fun hne => absurd (by simp [assetNeedsRefresh, h]) hne⟩
      · constructor
        · simp [assetNeedsRefresh, h, hc]
          exact fun hcc => hc hcc.symm
        · intro _
          simp [assetNeedsRefresh, h, hc]

/-- C5: with the checksum endpoint answering 200, `_asset_needs_refresh`
returns `none` exactly when both cache files exist and the recorded
checksum equals the freshly fetched one, and in every other case it
returns the freshly fetched checksum.  The function performs no writes:
it is a pure read of the cache state by construction, mirroring the
source, which only opens the checksum file in read mode. -/
theorem c5_needs_refresh_iff (env : RemoteEnv) (st : CacheState)
    (h : env.checksumStatus = 200) :
    (assetNeedsRefresh env st = .value none ↔
      (st.assetFile ≠ none ∧ st.combsumFile = some env.checksumBody))
  ∧ (assetNeedsRefresh env st ≠ .value none →
      assetNeedsRefresh env st = .value (some env.checksumBody)) :=
  assetNeedsRefresh_spec env st h

/-- C5 witness: the theorem applied at concrete inputs. -/
theorem c5_needs_refresh_iff_witness :
    assetNeedsRefresh ⟨200, "abc", [], none⟩ ⟨some "abc", some [1]⟩ = .value none
  ∧ assetNeedsRefresh ⟨200, "abc", [], none⟩ ⟨none, some [1]⟩ = .value (some "abc") :=
  ⟨(c5_needs_refresh_iff ⟨200, "abc", [], none⟩ ⟨some "abc", some [1]⟩ rfl).1.mpr
      (by exact ⟨by simp, rfl⟩),
   (c5_needs_refresh_iff ⟨200, "abc", [], none⟩ ⟨none, some [1]⟩ rfl).2 (by decide)⟩

/-- C9: the decompression step returns the decompressed path without
running the tool when the output already exists, and when the tool runs
and exits nonzero the step raises, so no decompressed output is
reported. -/
theorem c9_decompress_noop_and_fatal (ex : Bool) (rc : Int) :
    (ex = true → mtgjsonDecompressStep ex rc = ⟨.returnsPath, true, 0⟩)
  ∧ (ex = false → rc ≠ 0 → mtgjsonDecompressStep ex rc = ⟨.raiseBunzip2, false, 1⟩) := by
  constructor
  · intro h; simp [mtgjsonDecompressStep, h]
  · intro h hrc; simp [mtgjsonDecompressStep, h, hrc]

/-- C9 witness: the theorem applied at concrete inputs. -/
theorem c9_decompress_witness :
    mtgjsonDecompressStep true 5 = ⟨.returnsPath, true, 0⟩
  ∧ mtgjsonDecompressStep false 1 = ⟨.raiseBunzip2, false, 1⟩ :=
  ⟨(c9_decompress_noop_and_fatal true 5).1 rfl,
   (c9_decompress_noop_and_fatal false 1).2 rfl (by decide)⟩

/-- C7: a card whose text is SQL NULL or empty produces no change to the
classification table, and the loop simply continues with the remaining
cards. -/
theorem c7_null_or_empty_text_skipped (c : CardRecord) (cs : List CardRecord)
    (tbl : List ClassRow) (h : c.text = none ∨ c.text = some []) :
    stepCard tbl c = tbl ∧ runPipeline (c :: cs) tbl = runPipeline cs tbl := by
  have hs : stepCard tbl c = tbl := by
    rcases h with h | h <;>
      simp [stepCard, h, sqlSelectText, pyReplaceWith, pyReplaceGo]
  exact ⟨hs, by simp [runPipeline, hs]⟩

/-- C7 witness: the theorem applied at concrete inputs. -/
theorem c7_null_or_empty_text_skipped_witness :
    stepCard [] ⟨"u", none⟩ = []
  ∧ runPipeline [⟨"u", none⟩] [] = runPipeline [] [] :=
  c7_null_or_empty_text_skipped ⟨"u", none⟩ [] [] (Or.inl rfl)

/-- The `any` test used by the upsert is positive exactly when the key is
already present. -/
theorem any_key_iff_countKey_pos (tbl : List ClassRow) (u : String) :
    tbl.any (fun q => q.card_uuid == u) = true ↔ 0 < countKey tbl u := by
  induction tbl with
  | nil => simp [countKey]
  | cons r t ih =>
    by_cases h : r.card_uuid = u
    · simp [countKey, List.filter_cons, h]
    · simp [countKey, List.filter_cons, h] at ih ⊢
      exact ih

/-- Overwriting every row with key `u` by a row that again has key `u`
does not change how many rows carry key `u`. -/
theorem countKey_map_overwrite (tbl : List ClassRow) (rnew : ClassRow) (u : String)
    (h : rnew.card_uuid = u) :
    countKey (tbl.map (fun q => if q.card_uuid == u then rnew else q)) u
      = countKey tbl u := by
  induction tbl with
  | nil => rfl
  | cons r t ih =>
    by_cases hr : r.card_uuid = u <;>
      simp [countKey, List.filter_cons, hr, h] at ih ⊢ <;> exact ih

/-- Key count distributes over appending tables. -/
theorem countKey_append (t1 t2 : List ClassRow) (u : String) :
    countKey (t1 ++ t2) u = countKey t1 u + countKey t2 u := by
  simp [countKey, List.filter_append]

/-- A single upsert into a table holding at most one row with the new
row key leaves exactly one row with that key. -/
theorem countKey_upsertRow (tbl : List ClassRow) (r : ClassRow)
    (h : countKey tbl r.card_uuid ≤ 1) :
    countKey (upsertRow tbl r) r.card_uuid = 1 := by
  unfold upsertRow
  by_cases hany : tbl.any (fun q => q.card_uuid == r.card_uuid) = true
  · rw [if_pos hany, countKey_map_overwrite tbl r r.card_uuid rfl]
    have := (any_key_iff_countKey_pos tbl r.card_uuid).mp hany
    omega
  · have hz : countKey tbl r.card_uuid = 0 := by
      by_contra hnz
      exact hany ((any_key_iff_countKey_pos tbl r.card_uuid).mpr (Nat.pos_of_ne_zero hnz))
    rw [if_neg hany, countKey_append, hz]
    simp [countKey]

/-- When the key is already present, an upsert overwrites: afterwards
every row carrying that key is exactly the upserted row. -/
theorem upsertRow_overwrites (tbl : List ClassRow) (r : ClassRow)
    (h : 0 < countKey tbl r.card_uuid) :
    ∀ q ∈ upsertRow tbl r, q.card_uuid = r.card_uuid → q = r := by
  intro q hq hqu
  unfold upsertRow at hq
  rw [if_pos ((any_key_iff_countKey_pos tbl r.card_uuid).mpr h)] at hq
  rcases List.mem_map.mp hq with ⟨p, hp, hfp⟩
  by_cases hpu : p.card_uuid = r.card_uuid
  · rw [if_pos (beq_iff_eq.mpr hpu)] at hfp
    exact hfp.symm
  · rw [if_neg (fun hb => hpu (beq_iff_eq.mp hb))] at hfp
    subst hfp
    exact absurd hqu hpu

/-- C8: two consecutive upserts with the same key leave exactly one row
with that key, and that row is exactly the row of the second call: a full
overwrite of the legal flag, the normalized text, and the word count. -/
theorem c8_upsert_overwrites (tbl : List ClassRow) (u : String)
    (la lb : Bool) (ta tb : List Char) (na nb : Nat)
    (h : countKey tbl u ≤ 1) :
    countKey (upsertRow (upsertRow tbl ⟨u, la, ta, na⟩) ⟨u, lb, tb, nb⟩) u = 1
  ∧ ∀ r ∈ upsertRow (upsertRow tbl ⟨u, la, ta, na⟩) ⟨u, lb, tb, nb⟩,
      r.card_uuid = u → r = ⟨u, lb, tb, nb⟩ := by
  have h1 : countKey (upsertRow tbl ⟨u, la, ta, na⟩) u = 1 :=
    countKey_upsertRow tbl ⟨u, la, ta, na⟩ h
  refine ⟨countKey_upsertRow _ ⟨u, lb, tb, nb⟩ (le_of_eq h1), ?_⟩
  exact upsertRow_overwrites _ ⟨u, lb, tb, nb⟩ (by rw [h1]; omega)

/-- C8 witness: the theorem applied at concrete inputs. -/
theorem c8_upsert_overwrites_witness :
    countKey (upsertRow (upsertRow [] ⟨"c1", true, ['a'], 1⟩) ⟨"c1", false, ['b'], 30⟩) "c1" = 1
  ∧ ∀ r ∈ upsertRow (upsertRow [] ⟨"c1", true, ['a'], 1⟩) ⟨"c1", false, ['b'], 30⟩,
      r.card_uuid = "c1" → r = ⟨"c1", false, ['b'], 30⟩ :=
  c8_upsert_overwrites [] "c1" true false ['a'] ['b'] 1 30 (by decide)

/-- `split(" ")` never yields the empty token list. -/
theorem splitSp_ne_nil (t : List Char) : splitSp t ≠ [] := by
  cases t with
  | nil => simp [splitSp]
  | cons c r =>
    by_cases h : c = ' '
    · simp [splitSp, h]
    · simp [splitSp, h]
      split <;> simp

/-- The number of tokens of `split(" ")` is the number of spaces plus
one. -/
theorem length_splitSp (t : List Char) : (splitSp t).length = t.count ' ' + 1 := by
  induction t with
  | nil => simp [splitSp]
  | cons c r ih =>
    by_cases h : c = ' '
    · simp [splitSp, h, List.count_cons, ih]
    · rcases hs : splitSp r with _ | ⟨t0, ts⟩
      · exact absurd hs (splitSp_ne_nil r)
      · simp [splitSp, h, hs, List.count_cons] at ih ⊢
        omega

/-- C4: the classifier reports a word count equal to the number of
single-space-separated tokens (equivalently, the number of spaces plus
one, the empty string giving exactly one empty token) and is legal
exactly when that count is at most the threshold twenty; at the boundary,
twenty tokens are legal and twentyone are not.  `classify` is a plain
function of the text, hence pure and deterministic. -/
theorem c4_classify_word_count :
    (∀ t, (classify t).2 = t.count ' ' + 1)
  ∧ (∀ t, (classify t).1 = true ↔ (classify t).2 ≤ TWENTY)
  ∧ splitSp [] = [[]]
  ∧ (classify []).2 = 1
  ∧ (classify twentyTokenText).1 = true ∧ (classify twentyTokenText).2 = 20
  ∧ (classify twentyOneTokenText).1 = false ∧ (classify twentyOneTokenText).2 = 21 := by
  refine ⟨fun t => by simpa [classify, numWords] using length_splitSp t,
    fun t => by simp [classify],
    by decide, by decide, by decide, by decide, by decide, by decide⟩

/-- A refresh value returned by `_asset_needs_refresh` is always the
freshly fetched remote checksum. -/
theorem assetNeedsRefresh_value_some (env : RemoteEnv) (st : CacheState) (r : String)
    (h : assetNeedsRefresh env st = .value (some r)) : r = env.checksumBody := by
  rcases st with ⟨cs, af⟩
  by_cases hs : env.checksumStatus = 200
  · rcases af with _ | a
    · simp [assetNeedsRefresh, hs] at h
      exact h.symm
    · rcases cs with _ | c
      · simp [assetNeedsRefresh, hs] at h
        exact h.symm
      · by_cases hc : env.checksumBody = c <;> simp [assetNeedsRefresh, hs, hc] at h
        exact h.symm
  · simp [assetNeedsRefresh, hs] at h

/-- A no-refresh answer implies both cache files exist and the recorded
checksum equals the remote one. -/
theorem assetNeedsRefresh_value_none (env : RemoteEnv) (st : CacheState)
    (h : assetNeedsRefresh env st = .value none) :
    st.assetFile ≠ none ∧ st.combsumFile = some env.checksumBody := by
  by_cases hs : env.checksumStatus = 200
  · exact (assetNeedsRefresh_spec env st hs).1.mp h
  · simp [assetNeedsRefresh, hs] at h

/-- A run whose refresh check says no refresh (both files present with the
matching checksum) returns the cached asset untouched with zero asset
fetches. -/
theorem httpGet_no_refresh (env2 : RemoteEnv) (st : CacheState)
    (hs : env2.checksumStatus = 200)
    (hfa : st.assetFile ≠ none) (hfc : st.combsumFile = some env2.checksumBody) :
    httpGetPathCachedChecksummed env2 st = ⟨.returnsAssetPath, st, 0⟩ := by
  have hnr : assetNeedsRefresh env2 st = .value none :=
    (assetNeedsRefresh_spec env2 st hs).1.mpr ⟨hfa, hfc⟩
  simp [httpGetPathCachedChecksummed, hnr]

/-- With an empty remote checksum the Python truthiness test on the
returned checksum is false, so no fetch happens and the state is
untouched. -/
theorem httpGet_empty_checksum (env2 : RemoteEnv) (st : CacheState)
    (hs : env2.checksumStatus = 200) (hb : env2.checksumBody = "") :
    httpGetPathCachedChecksummed env2 st = ⟨.returnsAssetPath, st, 0⟩ := by
  rcases hnr : assetNeedsRefresh env2 st with code | r
  · rcases st with ⟨cs, af⟩
    rcases af with _ | a <;> rcases cs with _ | c
    · simp [assetNeedsRefresh, hs] at hnr
    · simp [assetNeedsRefresh, hs] at hnr
    · simp [assetNeedsRefresh, hs] at hnr
    · simp only [assetNeedsRefresh, hs] at hnr
      split at hnr <;> (try split at hnr) <;> simp_all
  · rcases r with _ | cs
    · simp [httpGetPathCachedChecksummed, hnr]
    · have hcs : cs = env2.checksumBody := assetNeedsRefresh_value_some env2 st cs hnr
      rw [hb] at hcs
      simp [httpGetPathCachedChecksummed, hnr, hcs]

/-- C6: a second run against a remote whose checksum body is unchanged
after a first successful run performs zero asset fetches, leaves the
cache state unchanged, and again returns the cached asset path. -/
theorem c6_second_run_no_fetch (env env2 : RemoteEnv) (st : CacheState)
    (hs2 : env2.checksumStatus = 200)
    (hb : env2.checksumBody = env.checksumBody)
    (h1 : (httpGetPathCachedChecksummed env st).outcome = .returnsAssetPath) :
    (httpGetPathCachedChecksummed env2 (httpGetPathCachedChecksummed env st).state).assetFetchCalls = 0
  ∧ (httpGetPathCachedChecksummed env2 (httpGetPathCachedChecksummed env st).state).state
      = (httpGetPathCachedChecksummed env st).state
  ∧ (httpGetPathCachedChecksummed env2 (httpGetPathCachedChecksummed env st).state).outcome
      = .returnsAssetPath := by
  rcases hnr : assetNeedsRefresh env st with code | r
  · simp [httpGetPathCachedChecksummed, hnr] at h1
  · rcases r with _ | cs
    · have hst : httpGetPathCachedChecksummed env st = ⟨.returnsAssetPath, st, 0⟩ := by
        simp [httpGetPathCachedChecksummed, hnr]
      obtain ⟨hfa, hfc⟩ := assetNeedsRefresh_value_none env st hnr
      rw [hst]
      rw [httpGet_no_refresh env2 st hs2 hfa (by rw [hfc, hb])]
      exact ⟨rfl, rfl, rfl⟩
    · by_cases hcs : cs = ""
      · have hb0 : env.checksumBody = "" := by
          have h2 := assetNeedsRefresh_value_some env st cs hnr
          rw [hcs] at h2
          exact h2.symm
        have hst : httpGetPathCachedChecksummed env st = ⟨.returnsAssetPath, st, 0⟩ := by
          simp [httpGetPathCachedChecksummed, hnr, hcs]
        rw [hst]
        rw [httpGet_empty_checksum env2 st hs2 (by rw [hb, hb0])]
        exact ⟨rfl, rfl, rfl⟩
      · rcases hfail : env.failAfterChunks with _ | k
        · have hcsb : cs = env.checksumBody := assetNeedsRefresh_value_some env st cs hnr
          have hst : httpGetPathCachedChecksummed env st
              = ⟨.returnsAssetPath, ⟨some cs, some env.assetChunks.flatten⟩, 1⟩ := by
            simp [httpGetPathCachedChecksummed, hnr, hcs, hfail]
          rw [hst]
          rw [httpGet_no_refresh env2 ⟨some cs, some env.assetChunks.flatten⟩ hs2
            (by simp) (by simp [hb, hcsb])]
          exact ⟨rfl, rfl, rfl⟩
        · simp [httpGetPathCachedChecksummed, hnr, hcs, hfail] at h1

/-- C6 witness: the theorem applied at concrete inputs. -/
theorem c6_second_run_no_fetch_witness :
    (httpGetPathCachedChecksummed ⟨200, "abc", [[1, 2]], none⟩
        (httpGetPathCachedChecksummed ⟨200, "abc", [[1, 2]], none⟩ ⟨none, none⟩).state).assetFetchCalls = 0
  ∧ (httpGetPathCachedChecksummed ⟨200, "abc", [[1, 2]], none⟩
        (httpGetPathCachedChecksummed ⟨200, "abc", [[1, 2]], none⟩ ⟨none, none⟩).state).state
      = (httpGetPathCachedChecksummed ⟨200, "abc", [[1, 2]], none⟩ ⟨none, none⟩).state
  ∧ (httpGetPathCachedChecksummed ⟨200, "abc", [[1, 2]], none⟩
        (httpGetPathCachedChecksummed ⟨200, "abc", [[1, 2]], none⟩ ⟨none, none⟩).state).outcome
      = .returnsAssetPath :=
  c6_second_run_no_fetch ⟨200, "abc", [[1, 2]], none⟩ ⟨200, "abc", [[1, 2]], none⟩ ⟨none, none⟩
    rfl rfl (by decide)

/-- `pyReplaceGo` on the empty text is empty at any fuel. -/
theorem pyReplaceGo_nil (pat repl : List Char) (f : Nat) :
    pyReplaceGo pat repl f [] = [] := by
  cases f <;> rfl

/-- The result of `pyReplaceGo` does not depend on the fuel once the fuel
covers the text length. -/
theorem pyReplaceGo_fuel_congr (pat repl : List Char) :
    ∀ f1 f2 s, s.length ≤ f1 → s.length ≤ f2 →
      pyReplaceGo pat repl f1 s = pyReplaceGo pat repl f2 s := by
  intro f1
  induction f1 using Nat.strong_induction_on with
  | _ f1 ih =>
    intro f2 s h1 h2
    cases s with
    | nil => rw [pyReplaceGo_nil, pyReplaceGo_nil]
    | cons c rest =>
      cases f1 with
      | zero => simp at h1
      | succ f1p =>
        cases f2 with
        | zero => simp at h2
        | succ f2p =>
          simp only [pyReplaceGo]
          split
          · next hcond =>
            have hplen : 1 ≤ pat.length := by
              rcases pat with _ | ⟨p, pr⟩
              · exact absurd rfl hcond.2
              · simp
            congr 1
            apply ih f1p (Nat.lt_succ_self f1p) f2p
            · simp only [List.length_drop, List.length_cons] at *
              omega
            · simp only [List.length_drop, List.length_cons] at *
              omega
          · congr 1
            apply ih f1p (Nat.lt_succ_self f1p) f2p
            · simp only [List.length_cons] at h1
              omega
            · simp only [List.length_cons] at h2
              omega

/-- Recurrence of the wrapper `pyReplaceWith` on a cons cell. -/
theorem pyReplaceWith_cons (pat repl : List Char) (c : Char) (rest : List Char) :
    pyReplaceWith pat repl (c :: rest)
      = if pat.isPrefixOf (c :: rest) ∧ pat ≠ [] then
          repl ++ pyReplaceWith pat repl ((c :: rest).drop pat.length)
        else c :: pyReplaceWith pat repl rest := by
  show pyReplaceGo pat repl (rest.length + 1) (c :: rest) = _
  simp only [pyReplaceGo]
  split
  · next hcond =>
    have hplen : 1 ≤ pat.length := by
      rcases pat with _ | ⟨p, pr⟩
      · exact absurd rfl hcond.2
      · simp
    congr 1
    apply pyReplaceGo_fuel_congr
    · simp only [List.length_drop, List.length_cons]
      omega
    · exact le_rfl
  · rfl

/-- `pyReplaceWith` on the empty text is empty. -/
theorem pyReplaceWith_nil (pat repl : List Char) : pyReplaceWith pat repl [] = [] := rfl

/-- The SQL newline-escape replacement agrees with the direct
two-character scan written from the spec. -/
theorem sqlSelectText_eq_spec (t : List Char) :
    sqlSelectText t = specReplaceNewlines t := by
  induction t using specReplaceNewlines.induct with
  | case1 => rfl
  | case2 c =>
    simp [sqlSelectText, pyReplaceWith_cons, pyReplaceWith_nil, List.isPrefixOf,
      specReplaceNewlines]
  | case3 c d rest h ih =>
    obtain ⟨hc, hd⟩ := h
    subst hc; subst hd
    simp only [sqlSelectText, specReplaceNewlines, if_pos (And.intro rfl rfl)] at ih ⊢
    rw [pyReplaceWith_cons]
    rw [if_pos (by simp [List.isPrefixOf])]
    simpa using ih
  | case4 c d rest h ih =>
    simp only [sqlSelectText, specReplaceNewlines, if_neg h] at ih ⊢
    rw [pyReplaceWith_cons]
    rw [if_neg (by
      intro hcond
      rcases hcond with ⟨hp, -⟩
      simp [List.isPrefixOf] at hp
      exact h ⟨hp.1.symm, hp.2.symm⟩)]
    rw [ih]

/-- A text with no close paren is returned unchanged by `splitAtClose`. -/
theorem splitAtClose_none : ∀ r : List Char, splitAtClose r = none → ∀ x ∈ r, x ≠ ')' := by
  intro r
  induction r with
  | nil => intro _ x hx; simp at hx
  | cons c t ih =>
    intro h x hx
    simp only [splitAtClose] at h
    by_cases hc : c = ')'
    · rw [if_pos hc] at h
      exact absurd h (by simp)
    · rw [if_neg hc] at h
      rcases List.mem_cons.mp hx with hx | hx
      · subst hx; exact hc
      · rcases hs : splitAtClose t with _ | p
        · exact ih hs x hx
        · rw [hs] at h; simp at h

/-- Decomposition produced by `splitAtClose`: the text is the content,
the close paren, then the remainder, and the content holds no close
paren. -/
theorem splitAtClose_some : ∀ r content after : List Char,
    splitAtClose r = some (content, after) →
      r = content ++ ')' :: after ∧ ∀ x ∈ content, x ≠ ')' := by
  intro r
  induction r with
  | nil => intro content after h; simp [splitAtClose] at h
  | cons c t ih =>
    intro content after h
    simp only [splitAtClose] at h
    by_cases hc : c = ')'
    · rw [if_pos hc] at h
      simp only [Option.some.injEq, Prod.mk.injEq] at h
      obtain ⟨h1, h2⟩ := h
      subst h1; subst h2; subst hc
      exact ⟨rfl, by simp⟩
    · rw [if_neg hc] at h
      rcases hs : splitAtClose t with _ | ⟨c1, a1⟩
      · rw [hs] at h; simp at h
      · rw [hs] at h
        simp only [Option.map_some', Option.some.injEq, Prod.mk.injEq] at h
        obtain ⟨h1, h2⟩ := h
        obtain ⟨ht, hcn⟩ := ih c1 a1 hs
        subst h1; subst h2
        refine ⟨by simp [ht], ?_⟩
        intro x hx
        rcases List.mem_cons.mp hx with hx | hx
        · subst hx; exact hc
        · exact hcn x hx

/-- Step of the paren scan at an open paren. -/
theorem rmRemAux_none_open (rest : List Char) :
    rmRemAux none ('(' :: rest) = rmRemAux (some []) rest := by
  simp [rmRemAux]

/-- Step of the paren scan at an ordinary character. -/
theorem rmRemAux_none_other (c : Char) (rest : List Char) (hc : c ≠ '(') :
    rmRemAux none (c :: rest) = c :: rmRemAux none rest := by
  simp [rmRemAux, hc]

/-- Inside a parenthesized segment with no close paren ahead, the scan
flushes the pending open paren and buffer verbatim. -/
theorem rmRemAux_no_close : ∀ s : List Char, ∀ buf, (∀ x ∈ s, x ≠ ')') →
    rmRemAux (some buf) s = '(' :: buf.reverse ++ s := by
  intro s
  induction s with
  | nil => intro buf h; simp [rmRemAux]
  | cons c t ih =>
    intro buf h
    have hc : c ≠ ')' := h c (by simp)
    simp only [rmRemAux, if_neg hc]
    rw [ih (c :: buf) (fun x hx => h x (List.mem_cons_of_mem c hx))]
    simp

/-- Inside a parenthesized segment whose content reaches a close paren,
the scan drops the segment, except that an empty pair is emitted
verbatim. -/
theorem rmRemAux_close : ∀ content buf after : List Char,
    (∀ x ∈ content, x ≠ ')') →
      rmRemAux (some buf) (content ++ ')' :: after)
        = if buf.isEmpty ∧ content.isEmpty then '(' :: ')' :: rmRemAux none after
          else rmRemAux none after := by
  intro content
  induction content with
  | nil =>
    intro buf after _
    by_cases hb : buf.isEmpty
    · have hbuf : buf = [] := by simpa [List.isEmpty_iff] using hb
      subst hbuf
      simp [rmRemAux]
    · have hbuf : buf ≠ [] := by simpa [List.isEmpty_iff] using hb
      simp [rmRemAux, hb, List.isEmpty_iff, hbuf]
  | cons c ct ih =>
    intro buf after h
    have hc : c ≠ ')' := h c (by simp)
    have hstep : rmRemAux (some buf) ((c :: ct) ++ ')' :: after)
        = rmRemAux (some (c :: buf)) (ct ++ ')' :: after) := by
      simp [rmRemAux, hc]
    rw [hstep, ih (c :: buf) after (fun x hx => h x (List.mem_cons_of_mem c hx))]
    simp

/-- Step of the spec-side paren removal at an open paren without any
close paren ahead. -/
theorem rmParensSpecGo_open_none (f : Nat) (rest : List Char)
    (hs : splitAtClose rest = none) :
    rmParensSpecGo (f + 1) ('(' :: rest) = '(' :: rmParensSpecGo f rest := by
  simp [rmParensSpecGo, hs]

/-- Step of the spec-side paren removal at an empty pair. -/
theorem rmParensSpecGo_open_empty (f : Nat) (rest after : List Char)
    (hs : splitAtClose rest = some ([], after)) :
    rmParensSpecGo (f + 1) ('(' :: rest) = '(' :: rmParensSpecGo f rest := by
  simp [rmParensSpecGo, hs]

/-- Step of the spec-side paren removal at a non-empty parenthesized
segment. -/
theorem rmParensSpecGo_open_some (f : Nat) (rest content after : List Char)
    (hs : splitAtClose rest = some (content, after)) (hne : content ≠ []) :
    rmParensSpecGo (f + 1) ('(' :: rest) = rmParensSpecGo f after := by
  have : content.isEmpty = false := by simpa [List.isEmpty_iff] using hne
  simp [rmParensSpecGo, hs, this]

/-- Step of the spec-side paren removal at an ordinary character. -/
theorem rmParensSpecGo_other (f : Nat) (c : Char) (rest : List Char) (hc : c ≠ '(') :
    rmParensSpecGo (f + 1) (c :: rest) = c :: rmParensSpecGo f rest := by
  simp [rmParensSpecGo, hc]

/-- A text with no close paren is returned unchanged by the spec-side
paren removal. -/
theorem rmParensSpecGo_no_close : ∀ fuel : Nat, ∀ s : List Char,
    s.length ≤ fuel → (∀ x ∈ s, x ≠ ')') →
      rmParensSpecGo fuel s = s := by
  intro fuel
  induction fuel with
  | zero => intro s _ _; rfl
  | succ f ih =>
    intro s hf h
    cases s with
    | nil => rfl
    | cons c rest =>
      have hfr : rest.length ≤ f := by
        simp only [List.length_cons] at hf; omega
      have hrest : ∀ x ∈ rest, x ≠ ')' := fun x hx => h x (List.mem_cons_of_mem c hx)
      by_cases hc : c = '('
      · subst hc
        rcases hs : splitAtClose rest with _ | ⟨content, after⟩
        · rw [rmParensSpecGo_open_none f rest hs, ih rest hfr hrest]
        · obtain ⟨hr, _⟩ := splitAtClose_some rest content after hs
          exact absurd (h ')' (by simp [hr])) (by simp)
      · rw [rmParensSpecGo_other f c rest hc, ih rest hfr hrest]

/-- The spec-side paren removal computes exactly
`re.sub(r"\([^\)]+\)", "", s)` as modelled by `rmRemAux`. -/
theorem rmParensSpecGo_eq_rmRemAux :
    ∀ fuel : Nat, ∀ s : List Char, s.length ≤ fuel →
      rmParensSpecGo fuel s = rmRemAux none s := by
  intro fuel
  induction fuel using Nat.strong_induction_on with
  | _ fuel ih =>
    intro s hf
    cases s with
    | nil => cases fuel <;> rfl
    | cons c rest =>
      cases fuel with
      | zero => simp at hf
      | succ f =>
        have hfr : rest.length ≤ f := by
          simp only [List.length_cons] at hf; omega
        by_cases hc : c = '('
        · subst hc
          rcases hs : splitAtClose rest with _ | ⟨content, after⟩
          · have hnc := splitAtClose_none rest hs
            rw [rmParensSpecGo_open_none f rest hs,
              rmParensSpecGo_no_close f rest hfr hnc,
              rmRemAux_none_open rest, rmRemAux_no_close rest [] hnc]
            simp
          · obtain ⟨hr, hcn⟩ := splitAtClose_some rest content after hs
            rcases content with _ | ⟨c0, ct⟩
            · simp only [List.nil_append] at hr
              rw [rmParensSpecGo_open_empty f rest after hs]
              subst hr
              cases f with
              | zero => simp at hfr
              | succ f2 =>
                rw [rmParensSpecGo_other f2 ')' after (by decide)]
                rw [ih f2 (by omega) after
                  (by simp only [List.length_cons] at hfr; omega)]
                rw [rmRemAux_none_open]
                simp [rmRemAux]
            · have hlen : after.length ≤ f := by
                have h2 : rest.length = (c0 :: ct).length + 1 + after.length := by
                  rw [hr]; simp [List.length_append]; omega
                omega
              rw [rmParensSpecGo_open_some f rest (c0 :: ct) after hs (by simp)]
              rw [ih f (Nat.lt_succ_self f) after hlen]
              rw [rmRemAux_none_open, hr, rmRemAux_close (c0 :: ct) [] after hcn]
              simp
        · rw [rmParensSpecGo_other f c rest hc,
            ih f (Nat.lt_succ_self f) rest hfr,
            rmRemAux_none_other c rest hc]

/-- The spec-side paren removal wrapper agrees with the source regex
model. -/
theorem rmParensSpecA_eq (s : List Char) : rmParensSpecA s = rmReminderText s :=
  rmParensSpecGo_eq_rmRemAux s.length s le_rfl

/-- The spec-side left trim is `dropWhile` on whitespace. -/
theorem specTrimLeft_eq_dropWhile (s : List Char) :
    specTrimLeft s = s.dropWhile isPyWhitespace := by
  induction s with
  | nil => rfl
  | cons c r ih =>
    by_cases h : isPyWhitespace c <;> simp [specTrimLeft, List.dropWhile_cons, h, ih]

/-- The spec-side trim is Python `str.strip()`. -/
theorem specTrim_eq_pyStrip (s : List Char) : specTrim s = pyStrip s := by
  simp [specTrim, pyStrip, specTrimLeft_eq_dropWhile]

/-- Entering a whitespace run is the same as skipping the whole run
first. -/
theorem collapseWsAux_true (r : List Char) :
    collapseWsAux true r = collapseWsAux false (r.dropWhile isPyWhitespace) := by
  induction r with
  | nil => rfl
  | cons c t ih =>
    by_cases h : isPyWhitespace c
    · simp [collapseWsAux, h, List.dropWhile_cons, ih]
    · simp [collapseWsAux, h, List.dropWhile_cons]

/-- The spec-side run collapsing agrees with the source regex model. -/
theorem collapseRunsGo_eq (fuel : Nat) :
    ∀ s : List Char, s.length ≤ fuel →
      collapseRunsGo fuel s = collapseWsAux false s := by
  induction fuel with
  | zero =>
    intro s hf
    rw [List.length_eq_zero.mp (Nat.le_zero.mp hf)]
    rfl
  | succ f ih =>
    intro s hf
    cases s with
    | nil => rfl
    | cons c rest =>
      have hfr : rest.length ≤ f := by
        simp only [List.length_cons] at hf; omega
      by_cases h : isPyWhitespace c
      · simp only [collapseRunsGo, if_pos h, collapseWsAux]
        rw [ih (rest.dropWhile isPyWhitespace)
          (le_trans ((List.dropWhile_sublist _).length_le) hfr)]
        rw [collapseWsAux_true]
        try simp [h]
      · simp only [collapseRunsGo, if_neg h, collapseWsAux]
        rw [ih rest hfr]
        try simp [h]

/-- The spec-side run collapsing wrapper agrees with the source model. -/
theorem collapseRuns_eq (s : List Char) : collapseRuns s = collapseWs s :=
  collapseRunsGo_eq s.length s le_rfl

/-- The accumulator formulation of phrase removal agrees with
`pyReplaceGo` deleting the phrase. -/
theorem specRemoveAllGo_eq (pat : List Char) :
    ∀ fuel acc s, s.length ≤ fuel →
      specRemoveAllGo pat fuel acc s = acc.reverse ++ pyReplaceGo pat [] fuel s := by
  intro fuel
  induction fuel using Nat.strong_induction_on with
  | _ fuel ih =>
    intro acc s hf
    cases s with
    | nil =>
      cases fuel with
      | zero => simp [specRemoveAllGo, pyReplaceGo]
      | succ f => simp [specRemoveAllGo, pyReplaceGo]
    | cons c rest =>
      cases fuel with
      | zero => simp at hf
      | succ f =>
        have hfr : rest.length ≤ f := by
          simp only [List.length_cons] at hf; omega
        simp only [specRemoveAllGo, pyReplaceGo]
        split
        · next hcond =>
          have hplen : 1 ≤ pat.length := by
            rcases pat with _ | ⟨p, pr⟩
            · exact absurd rfl hcond.2
            · simp
          rw [ih f (Nat.lt_succ_self f) acc ((c :: rest).drop pat.length)
            (by simp only [List.length_drop, List.length_cons]; omega)]
          simp
        · rw [ih f (Nat.lt_succ_self f) (c :: acc) rest hfr]
          simp

/-- The spec-side phrase removal wrapper is Python
`str.replace(pat, "")`. -/
theorem specRemoveAll_eq_pyReplace (pat s : List Char) :
    specRemoveAll pat s = pyReplaceWith pat [] s := by
  unfold specRemoveAll pyReplaceWith
  rw [specRemoveAllGo_eq pat s.length [] s le_rfl]
  rfl

/-- C3 counterexample: the normalization steps exactly as the claim words
them disagree with the code.  On this input the code leaves the empty
pair of parens in place (the regex wants one or more characters between
them) and never treats the backslash-n sequence uncovered by removing
"(x)" as whitespace (the SQL replace ran before paren removal), while the
claimed step order erases both. -/
theorem c3_normalize_counterexample :
    twmtgNormalize ("a () b \\(x)n".toList) = "a () b \\n".toList
  ∧ normalizeSpecClaimed ("a () b \\(x)n".toList) = "a b".toList
  ∧ twmtgNormalize ("a () b \\(x)n".toList) ≠ normalizeSpecClaimed ("a () b \\(x)n".toList) := by
  refine ⟨by decide, by decide, by decide⟩

/-- C3 (amended): normalization performs, in order, (1) replacement of
each literal newline escape sequence by a single space, (2) removal of
every maximal substring delimited by an open paren and the next close
paren that contains at least one character (the empty pair stays), (3)
trimming and collapsing of every whitespace run to a single space, and
(4) removal of every exact occurrence of each configured filter phrase
followed by a re-trim; in particular the Flying reminder text example
normalizes to Flying. -/
theorem c3_normalize_steps_amended :
    (∀ t, twmtgNormalize t = specNormalizeAmended t)
  ∧ twmtgNormalize
      ("Flying (This creature can\x27t be blocked except by creatures with flying or reach.)".toList)
      = "Flying".toList := by
  constructor
  · intro t
    unfold specNormalizeAmended
    simp only [specTrim_eq_pyStrip, collapseRuns_eq, specRemoveAll_eq_pyReplace,
      rmParensSpecA_eq, ← sqlSelectText_eq_spec]
    rfl
  · decide

/-- Equality tests commute on strings. -/
theorem string_beq_comm (a b : String) : (a == b) = (b == a) := by
  by_cases h : a = b
  · subst h; rfl
  · rw [beq_eq_false_iff_ne.mpr h, beq_eq_false_iff_ne.mpr (fun hh => h hh.symm)]

/-- Splitting a boolean filter by a second flag splits its length. -/
theorem length_filter_and_split {α : Type} (l : List α) (p q : α → Bool) :
    (l.filter fun x => p x && q x).length + (l.filter fun x => p x && !q x).length
      = (l.filter p).length := by
  induction l with
  | nil => rfl
  | cons a t ih =>
    rcases hp : p a <;> rcases hq : q a <;> simp [List.filter_cons, hp, hq] <;> omega

/-- Sums of mapped values add pointwise. -/
theorem sum_map_add {α : Type} (l : List α) (f g : α → Nat) :
    (l.map f).sum + (l.map g).sum = (l.map fun x => f x + g x).sum := by
  induction l with
  | nil => rfl
  | cons a t ih =>
    simp only [List.map_cons, List.sum_cons]
    omega

/-- The two legality counts of the join query add up to the number of
key-matching pairs. -/
theorem countJoin_split (cards : List CardRecord) (tbl : List ClassRow) :
    countJoin cards tbl true + countJoin cards tbl false
      = (cards.map fun c => countKey tbl c.uuid).sum := by
  unfold countJoin
  rw [List.length_flatMap, List.length_flatMap, sum_map_add]
  apply congrArg List.sum
  apply List.map_congr_left
  intro c _
  simp only [Function.comp]
  rw [show (fun r : ClassRow => c.uuid == r.card_uuid && (r.legal == true))
      = (fun r : ClassRow => c.uuid == r.card_uuid && r.legal) from by
    funext r; simp]
  rw [show (fun r : ClassRow => c.uuid == r.card_uuid && (r.legal == false))
      = (fun r : ClassRow => c.uuid == r.card_uuid && !r.legal) from by
    funext r; simp]
  rw [length_filter_and_split tbl (fun r => c.uuid == r.card_uuid) (fun r => r.legal)]
  unfold countKey
  apply congrArg List.length
  apply List.filter_congr
  intro r _
  exact string_beq_comm c.uuid r.card_uuid

/-- The key count is the key multiplicity in the key list. -/
theorem countKey_eq_count_keysOf (tbl : List ClassRow) (u : String) :
    countKey tbl u = (keysOf tbl).count u := by
  induction tbl with
  | nil => rfl
  | cons r t ih =>
    by_cases h : r.card_uuid = u <;>
      simp only [countKey, keysOf, List.filter_cons, List.map_cons, List.count_cons,
        h, List.length_cons] at ih ⊢ <;> simp [ih, h]

/-- Keys after an upsert: unchanged when the key is present, appended
otherwise. -/
theorem keysOf_upsertRow (tbl : List ClassRow) (r : ClassRow) :
    keysOf (upsertRow tbl r)
      = if r.card_uuid ∈ keysOf tbl then keysOf tbl else keysOf tbl ++ [r.card_uuid] := by
  by_cases hmem : r.card_uuid ∈ keysOf tbl
  · have hany : tbl.any (fun q => q.card_uuid == r.card_uuid) = true := by
      rcases List.mem_map.mp hmem with ⟨q, hq, hqe⟩
      simp only [List.any_eq_true]
      exact ⟨q, hq, by simp [hqe]⟩
    rw [if_pos hmem]
    unfold upsertRow keysOf
    rw [if_pos hany, List.map_map]
    apply List.map_congr_left
    intro q _
    by_cases hqr : q.card_uuid = r.card_uuid
    · simp [Function.comp, hqr]
    · simp [Function.comp, beq_eq_false_iff_ne.mpr hqr]
  · have hany : tbl.any (fun q => q.card_uuid == r.card_uuid) = false := by
      rw [List.any_eq_false]
      intro q hq
      intro hqe
      exact hmem (by
        rcases beq_iff_eq.mp hqe with h
        exact h ▸ List.mem_map_of_mem (fun x => x.card_uuid) hq)
    rw [if_neg hmem]
    unfold upsertRow keysOf
    rw [if_neg (by simp [hany])]
    simp

/-- A card with no usable text leaves the table untouched. -/
theorem stepCard_no_text (tbl : List ClassRow) (c : CardRecord)
    (h : cardHasText c = false) : stepCard tbl c = tbl := by
  unfold stepCard
  unfold cardHasText at h
  rcases hc : c.text with _ | rawText
  · rfl
  · rw [hc] at h
    simp at h
    simp [h]

/-- A card with usable text upserts a row keyed by its uuid. -/
theorem keysOf_stepCard_text (tbl : List ClassRow) (c : CardRecord)
    (h : cardHasText c = true) :
    keysOf (stepCard tbl c)
      = if c.uuid ∈ keysOf tbl then keysOf tbl else keysOf tbl ++ [c.uuid] := by
  unfold stepCard
  unfold cardHasText at h
  rcases hc : c.text with _ | rawText
  · rw [hc] at h; simp at h
  · rw [hc] at h
    simp only [Bool.not_eq_true'] at h
    simp only [h, Bool.false_eq_true, if_false]
    exact keysOf_upsertRow tbl _

/-- Keys produced by a full pipeline run over fresh cards: the previous
keys followed by the uuid of every card with usable text, in order. -/
theorem keysOf_runPipeline : ∀ cards : List CardRecord, ∀ tbl : List ClassRow,
    (∀ c ∈ cards, c.uuid ∉ keysOf tbl) →
    (cards.map fun c => c.uuid).Nodup →
    keysOf (runPipeline cards tbl)
      = keysOf tbl ++ ((cards.filter cardHasText).map fun c => c.uuid) := by
  intro cards
  induction cards with
  | nil => intro tbl _ _; simp [runPipeline]
  | cons c cs ih =>
    intro tbl hfresh hnd
    have hstep : runPipeline (c :: cs) tbl = runPipeline cs (stepCard tbl c) := rfl
    have hnd' : (c.uuid :: cs.map fun x => x.uuid).Nodup := by
      rw [← List.map_cons]; exact hnd
    have hnd2 : (cs.map fun x => x.uuid).Nodup := (List.nodup_cons.mp hnd').2
    have hhead : c.uuid ∉ cs.map fun x => x.uuid := (List.nodup_cons.mp hnd').1
    rcases hct : cardHasText c with _ | _
    · rw [hstep, stepCard_no_text tbl c hct]
      rw [ih tbl (fun x hx => hfresh x (List.mem_cons_of_mem c hx)) hnd2]
      simp [List.filter_cons, hct]
    · have hkeys : keysOf (stepCard tbl c) = keysOf tbl ++ [c.uuid] := by
        rw [keysOf_stepCard_text tbl c hct,
          if_neg (hfresh c (List.mem_cons_self c cs))]
      have hcu : ∀ x ∈ cs, x.uuid ≠ c.uuid := by
        intro x hx hxe
        exact hhead (hxe ▸ List.mem_map_of_mem (fun y => y.uuid) hx)
      have hfresh2 : ∀ x ∈ cs, x.uuid ∉ keysOf (stepCard tbl c) := by
        intro x hx
        rw [hkeys]
        intro hmem
        rcases List.mem_append.mp hmem with hmem | hmem
        · exact hfresh x (List.mem_cons_of_mem c hx) hmem
        · exact hcu x hx (by simpa using hmem)
      rw [hstep, ih (stepCard tbl c) hfresh2 hnd2, hkeys]
      simp [List.filter_cons, hct]

/-- Multiplicity of a key in a cons list. -/
theorem count_cons_str (A : List String) (a b : String) :
    (a :: A).count b = A.count b + if b = a then 1 else 0 := by
  by_cases hb : b = a
  · subst hb
    simp [List.count_cons]
  · simp [List.count_cons, hb]

/-- Sum of indicator values counts the occurrences. -/
theorem sum_ite_count (B : List String) (a : String) :
    (B.map fun b => if b = a then (1 : Nat) else 0).sum = B.count a := by
  induction B with
  | nil => rfl
  | cons b B ih =>
    rw [List.map_cons, List.sum_cons, ih, count_cons_str B b a]
    by_cases hb : b = a
    · subst hb
      simp [Nat.add_comm]
    · have h2 : ¬a = b := fun h => hb h.symm
      simp [h2, hb]

/-- Double counting: summing the multiplicities of the members of one
list inside the other is symmetric. -/
theorem sum_count_comm : ∀ A B : List String,
    (A.map fun a => B.count a).sum = (B.map fun b => A.count b).sum := by
  intro A
  induction A with
  | nil =>
    intro B
    simp
  | cons a A ih =>
    intro B
    have hB : (B.map fun b => (a :: A).count b)
        = B.map fun b => A.count b + if b = a then 1 else 0 :=
      List.map_congr_left (fun b _ => count_cons_str A a b)
    rw [List.map_cons, List.sum_cons, ih, hB, ← sum_map_add, sum_ite_count]
    omega

/-- Summing the constant one over a list gives its length. -/
theorem sum_map_one {α : Type} (l : List α) :
    (l.map fun _ => (1 : Nat)).sum = l.length := by
  induction l with
  | nil => rfl
  | cons a t ih => simp [ih, Nat.add_comm]

/-- The SQL newline-escape replacement preserves emptiness. -/
theorem sqlSelectText_nil_iff (t : List Char) : sqlSelectText t = [] ↔ t = [] := by
  rw [sqlSelectText_eq_spec]
  constructor
  · intro h
    cases t with
    | nil => rfl
    | cons c r =>
      cases r with
      | nil => simp [specReplaceNewlines] at h
      | cons d r2 =>
        by_cases hcd : c = '\\' ∧ d = 'n' <;> simp [specReplaceNewlines, hcd] at h
  · intro h; subst h; rfl

/-- The truthiness test of the pipeline accepts exactly the cards whose
raw text is present and non-empty. -/
theorem cardHasText_iff (c : CardRecord) :
    cardHasText c = match c.text with | none => false | some t => !t.isEmpty := by
  unfold cardHasText
  rcases hc : c.text with _ | t
  · rfl
  · show (!(sqlSelectText t).isEmpty) = (!t.isEmpty)
    by_cases ht : t = []
    · subst ht; rfl
    · have hne : sqlSelectText t ≠ [] := fun h => ht ((sqlSelectText_nil_iff t).mp h)
      have h1 : (sqlSelectText t).isEmpty = false := by
        cases hse : (sqlSelectText t).isEmpty
        · rfl
        · exact absurd (List.isEmpty_iff.mp hse) hne
      have h2 : t.isEmpty = false := by
        cases hse : t.isEmpty
        · rfl
        · exact absurd (List.isEmpty_iff.mp hse) ht
      rw [h1, h2]

/-- C2: after a complete pipeline run from a fresh derived table over
cards with distinct uuids, the legal count plus the illegal count of the
join query equals the number of cards whose text is present and
non-empty, which also equals the number of classification rows whose key
matches a card of the source table. -/
theorem c2_aggregate_consistency (cards : List CardRecord)
    (hn : (cards.map fun c => c.uuid).Nodup) :
    countJoin cards (runPipeline cards []) true
        + countJoin cards (runPipeline cards []) false
      = (cards.filter fun c =>
          match c.text with | none => false | some t => !t.isEmpty).length
  ∧ ((runPipeline cards []).filter
        (fun r => cards.any fun c => c.uuid == r.card_uuid)).length
      = (cards.filter fun c =>
          match c.text with | none => false | some t => !t.isEmpty).length := by
  have hfilter : (cards.filter fun c =>
      match c.text with | none => false | some t => !t.isEmpty)
      = cards.filter cardHasText := by
    apply List.filter_congr
    intro c _
    exact (cardHasText_iff c).symm
  have hkeys : keysOf (runPipeline cards [])
      = (cards.filter cardHasText).map fun c => c.uuid := by
    have h := keysOf_runPipeline cards [] (by intro c _; simp [keysOf]) hn
    simpa [keysOf] using h
  constructor
  · rw [countJoin_split]
    rw [List.map_congr_left
      (fun c (_ : c ∈ cards) => countKey_eq_count_keysOf (runPipeline cards []) c.uuid)]
    rw [hkeys]
    have h2 : (cards.map fun c =>
        (((cards.filter cardHasText).map fun c => c.uuid)).count c.uuid)
        = (cards.map fun c => c.uuid).map
            fun u => ((cards.filter cardHasText).map fun c => c.uuid).count u := by
      rw [List.map_map]
      simp [Function.comp]
    rw [h2, sum_count_comm]
    have h3 : ∀ k ∈ (cards.filter cardHasText).map fun c => c.uuid,
        (cards.map fun c => c.uuid).count k = 1 := by
      intro k hk
      rcases List.mem_map.mp hk with ⟨c, hc, hcu⟩
      have hm : k ∈ cards.map fun c => c.uuid :=
        hcu ▸ List.mem_map_of_mem _ (List.mem_of_mem_filter hc)
      exact List.count_eq_one_of_mem hn hm
    rw [List.map_congr_left h3, sum_map_one, List.length_map, hfilter]
  · have hall : ∀ r ∈ runPipeline cards [],
        (cards.any fun c => c.uuid == r.card_uuid) = true := by
      intro r hr
      have hkr : r.card_uuid ∈ keysOf (runPipeline cards []) :=
        List.mem_map_of_mem (fun q => q.card_uuid) hr
      rw [hkeys] at hkr
      rcases List.mem_map.mp hkr with ⟨c, hc, hcu⟩
      rw [List.any_eq_true]
      exact ⟨c, List.mem_of_mem_filter hc, by simp [hcu]⟩
    rw [List.filter_eq_self.mpr hall, hfilter]
    have hlen : (runPipeline cards []).length
        = (keysOf (runPipeline cards [])).length := by
      simp [keysOf]
    rw [hlen, hkeys, List.length_map]

/-- C2 witness: the theorem applied at a concrete cards table. -/
theorem c2_aggregate_consistency_witness :
    countJoin sampleCards (runPipeline sampleCards []) true
        + countJoin sampleCards (runPipeline sampleCards []) false
      = (sampleCards.filter fun c =>
          match c.text with | none => false | some t => !t.isEmpty).length
  ∧ ((runPipeline sampleCards []).filter
        (fun r => sampleCards.any fun c => c.uuid == r.card_uuid)).length
      = (sampleCards.filter fun c =>
          match c.text with | none => false | some t => !t.isEmpty).length :=
  c2_aggregate_consistency sampleCards (by decide)

/-- The replacement scan passes unchanged over a region that contains no
occurrence of the first pattern character. -/
theorem pyReplaceWith_append_no_head (pat repl : List Char) (p : Char) (pr : List Char)
    (hp : pat = p :: pr) :
    ∀ a s : List Char, (∀ c ∈ a, c ≠ p) →
      pyReplaceWith pat repl (a ++ s) = a ++ pyReplaceWith pat repl s := by
  intro a
  induction a with
  | nil => intro s _; rfl
  | cons c a ih =>
    intro s h
    have hc : c ≠ p := h c (by simp)
    rw [List.cons_append, pyReplaceWith_cons]
    rw [if_neg (by
      intro hcond
      rcases hcond with ⟨hpre, -⟩
      rw [hp] at hpre
      simp [List.isPrefixOf] at hpre
      exact hc hpre.1.symm)]
    rw [ih s (fun x hx => h x (List.mem_cons_of_mem c hx))]
    rfl

/-- At an exact occurrence of the pattern the scan emits the replacement
and continues right after the occurrence. -/
theorem pyReplaceWith_head_match (pat repl s : List Char) (hp : pat ≠ []) :
    pyReplaceWith pat repl (pat ++ s) = repl ++ pyReplaceWith pat repl s := by
  rcases pat with _ | ⟨p, pr⟩
  · exact absurd rfl hp
  · rw [List.cons_append, pyReplaceWith_cons]
    rw [if_pos ⟨by
        rw [List.isPrefixOf_iff_prefix]
        exact ⟨s, by simp⟩,
      by simp⟩]
    congr 1
    rw [List.length_cons, List.drop_succ_cons, List.drop_left]

/-- A text without the first pattern character is left unchanged by the
replacement. -/
theorem pyReplaceWith_no_head (pat repl : List Char) (p : Char) (pr : List Char)
    (hp : pat = p :: pr) (a : List Char) (h : ∀ c ∈ a, c ≠ p) :
    pyReplaceWith pat repl a = a := by
  have hx := pyReplaceWith_append_no_head pat repl p pr hp a [] h
  simpa [pyReplaceWith_nil] using hx

/-- Splitting on spaces distributes over a space juncture. -/
theorem splitSp_append_space : ∀ x y : List Char,
    splitSp (x ++ ' ' :: y) = splitSp x ++ splitSp y := by
  intro x
  induction x with
  | nil => intro y; simp [splitSp]
  | cons c x ih =>
    intro y
    have hxy : (c :: x) ++ ' ' :: y = c :: (x ++ ' ' :: y) := rfl
    rw [hxy]
    by_cases hc : c = ' '
    · subst hc
      rw [show splitSp (' ' :: (x ++ ' ' :: y)) = [] :: splitSp (x ++ ' ' :: y) from by
          simp [splitSp],
        show splitSp (' ' :: x) = [] :: splitSp x from by simp [splitSp],
        ih]
      rfl
    · rw [show splitSp (c :: (x ++ ' ' :: y))
          = (match splitSp (x ++ ' ' :: y) with
             | [] => [[c]]
             | t :: ts => (c :: t) :: ts) from by simp [splitSp, hc]]
      rw [show splitSp (c :: x)
          = (match splitSp x with
             | [] => [[c]]
             | t :: ts => (c :: t) :: ts) from by simp [splitSp, hc]]
      rw [ih]
      rcases hs : splitSp x with _ | ⟨t0, ts⟩
      · exact absurd hs (splitSp_ne_nil x)
      · simp [hs]

/-- In a token list with no empty token, counting the non-empty tokens
counts them all. -/
theorem countP_all_nonempty (L : List (List Char)) (h : ∀ w ∈ L, w ≠ []) :
    L.countP (fun w => !w.isEmpty) = L.length := by
  induction L with
  | nil => rfl
  | cons w L ih =>
    have hw : (!w.isEmpty) = true := by
      have hne := h w (by simp)
      cases hwe : w.isEmpty
      · rfl
      · exact absurd (List.isEmpty_iff.mp hwe) hne
    rw [show List.countP (fun w : List Char => !w.isEmpty) (w :: L)
        = List.countP (fun w : List Char => !w.isEmpty) L + 1 from by
      simp [List.countP_cons, hw]]
    rw [ih (fun x hx => h x (List.mem_cons_of_mem w hx)), List.length_cons]

/-- Stripping is the identity on a text with no whitespace at either
edge. -/
theorem pyStrip_eq_self (x : List Char)
    (h1 : x.dropWhile isPyWhitespace = x)
    (h2 : x.reverse.dropWhile isPyWhitespace = x.reverse) :
    pyStrip x = x := by
  unfold pyStrip
  rw [h1, h2, List.reverse_reverse]

/-- C10: on a whitespace-collapsed text that carries the configured
filter phrase strictly between two other tokens, the filter stage of the
pipeline (the replace fold and the final strip of populate.py lines
113-117) removes the phrase but never re-collapses whitespace: the
stored text keeps two consecutive spaces at the juncture, and the
space-split word count exceeds the count of non-empty tokens by exactly
one, one extra empty token for the interior removal.  The hypotheses
say that the surrounding pieces contain no capital T (so no occurrence
of the phrase starts inside them), that their space-split tokens are all
non-empty, and that their only whitespace is the single space, which is
what being whitespace-collapsed gives. -/
theorem c10_filter_no_recollapse (a b : List Char)
    (ha1 : ∀ c ∈ a, c ≠ 'T') (hb1 : ∀ c ∈ b, c ≠ 'T')
    (ha2 : ∀ w ∈ splitSp a, w ≠ []) (hb2 : ∀ w ∈ splitSp b, w ≠ [])
    (hwsa : ∀ c ∈ a, isPyWhitespace c → c = ' ')
    (hwsb : ∀ c ∈ b, isPyWhitespace c → c = ' ') :
    pyStrip (FILTER_STRINGS.foldl (fun t fs => pyReplaceWith fs [] t)
        (a ++ ' ' :: (filterPhrase ++ ' ' :: b)))
      = a ++ ' ' :: ' ' :: b
  ∧ [' ', ' '] <:+: a ++ ' ' :: ' ' :: b
  ∧ numWords (a ++ ' ' :: ' ' :: b)
      = (splitSp (a ++ ' ' :: ' ' :: b)).countP (fun w => !w.isEmpty) + 1 := by
  have hfp : filterPhrase
      = 'T' :: "his spell costs {1} more to cast for each target beyond the first.".toList := by
    decide
  have hane : a ≠ [] := by
    intro h
    subst h
    exact ha2 [] (by simp [splitSp]) rfl
  have hbne : b ≠ [] := by
    intro h
    subst h
    exact hb2 [] (by simp [splitSp]) rfl
  rcases ha : a with _ | ⟨c0, a0⟩
  · exact absurd ha hane
  rcases hbr : b.reverse with _ | ⟨bl, br⟩
  · exact absurd (List.reverse_eq_nil_iff.mp hbr) hbne
  have hbb : b = br.reverse ++ [bl] := by
    rw [← List.reverse_reverse b, hbr]
    simp
  have h0 : ¬ isPyWhitespace c0 = true := by
    intro hws
    have hsp : c0 = ' ' := hwsa c0 (by rw [ha]; simp) hws
    subst hsp
    have : ([] : List Char) ∈ splitSp a := by
      rw [ha]
      simp [splitSp]
    exact ha2 [] this rfl
  have hbl : ¬ isPyWhitespace bl = true := by
    intro hws
    have hsp : bl = ' ' := hwsb bl (by rw [hbb]; simp) hws
    subst hsp
    have : ([] : List Char) ∈ splitSp b := by
      rw [hbb, show (br.reverse ++ [' ']) = br.reverse ++ ' ' :: [] from rfl,
        splitSp_append_space]
      simp [splitSp]
    exact hb2 [] this rfl
  subst ha
  have hstrip : pyStrip ((c0 :: a0) ++ ' ' :: ' ' :: b) = (c0 :: a0) ++ ' ' :: ' ' :: b := by
    apply pyStrip_eq_self
    · rw [List.cons_append, List.dropWhile_cons, if_neg h0]
    · have hrev : ((c0 :: a0) ++ ' ' :: ' ' :: b).reverse
          = bl :: (br ++ ' ' :: ' ' :: (c0 :: a0).reverse) := by
        rw [hbb]
        simp
      rw [hrev, List.dropWhile_cons, if_neg hbl]
  have hA : ∀ c ∈ (c0 :: a0) ++ [' '], c ≠ 'T' := by
    intro c hc
    rcases List.mem_append.mp hc with hc | hc
    · exact ha1 c hc
    · simp at hc; subst hc; decide
  have hB : ∀ c ∈ ' ' :: b, c ≠ 'T' := by
    intro c hc
    rcases List.mem_cons.mp hc with hc | hc
    · subst hc; decide
    · exact hb1 c hc
  have hrepl : pyReplaceWith filterPhrase [] ((c0 :: a0) ++ ' ' :: (filterPhrase ++ ' ' :: b))
      = (c0 :: a0) ++ ' ' :: ' ' :: b := by
    calc pyReplaceWith filterPhrase [] ((c0 :: a0) ++ ' ' :: (filterPhrase ++ ' ' :: b))
        = pyReplaceWith filterPhrase [] (((c0 :: a0) ++ [' ']) ++ (filterPhrase ++ ' ' :: b)) := by
          rw [List.append_cons]
      _ = ((c0 :: a0) ++ [' ']) ++ pyReplaceWith filterPhrase [] (filterPhrase ++ ' ' :: b) :=
          pyReplaceWith_append_no_head filterPhrase [] 'T' _ hfp ((c0 :: a0) ++ [' ']) _ hA
      _ = ((c0 :: a0) ++ [' ']) ++ ([] ++ pyReplaceWith filterPhrase [] (' ' :: b)) := by
          rw [pyReplaceWith_head_match filterPhrase [] (' ' :: b) (by rw [hfp]; simp)]
      _ = ((c0 :: a0) ++ [' ']) ++ (' ' :: b) := by
          rw [List.nil_append,
            pyReplaceWith_no_head filterPhrase [] 'T' _ hfp (' ' :: b) hB]
      _ = (c0 :: a0) ++ ' ' :: ' ' :: b := by
          simp
  refine ⟨?_, ⟨c0 :: a0, b, by simp⟩, ?_⟩
  · show pyStrip (pyReplaceWith filterPhrase []
        ((c0 :: a0) ++ ' ' :: (filterPhrase ++ ' ' :: b))) = _
    rw [hrepl, hstrip]
  · unfold numWords
    rw [show (c0 :: a0) ++ ' ' :: ' ' :: b = (c0 :: a0) ++ ' ' :: (' ' :: b) from rfl,
      splitSp_append_space (c0 :: a0) (' ' :: b),
      show splitSp (' ' :: b) = [] :: splitSp b from by simp [splitSp]]
    have hc1 : (([] : List Char) :: splitSp b).countP (fun w => !w.isEmpty)
        = (splitSp b).countP (fun w => !w.isEmpty) := by
      simp [List.countP_cons]
    rw [List.countP_append, List.length_append, hc1,
      countP_all_nonempty _ ha2, countP_all_nonempty _ hb2, List.length_cons]
    omega

/-- C10 witness: the theorem applied at concrete surrounding tokens. -/
theorem c10_filter_no_recollapse_witness :
    pyStrip (FILTER_STRINGS.foldl (fun t fs => pyReplaceWith fs [] t)
        ("ab".toList ++ ' ' :: (filterPhrase ++ ' ' :: "cd".toList)))
      = "ab".toList ++ ' ' :: ' ' :: "cd".toList
  ∧ [' ', ' '] <:+: "ab".toList ++ ' ' :: ' ' :: "cd".toList
  ∧ numWords ("ab".toList ++ ' ' :: ' ' :: "cd".toList)
      = (splitSp ("ab".toList ++ ' ' :: ' ' :: "cd".toList)).countP (fun w => !w.isEmpty) + 1 :=
  c10_filter_no_recollapse "ab".toList "cd".toList (by decide) (by decide)
    (by decide) (by decide) (by decide) (by decide)
